import Mathlib

/-!
Shallow embedding of `CycleSampler::Sampler<AmbDim,Real,Int>` (Sampler.hpp)
over exact real arithmetic, specialised to ambient dimension `AmbDim = 3`
where the solver state is involved (the repository's primary instantiation),
and with the edge count `n` kept symbolic.  Machine reals (`Real = double`)
are modelled as `ℝ`; the source's floating-point constants
(`std::numeric_limits<double>::min()`, `::max()`) are carried as their exact
real values.
-/

namespace CycleSampler

noncomputable section

open scoped Classical

/-- eps of the source (Sampler.hpp line 124): `std::numeric_limits<Real>::min()`,
the smallest positive normal binary64 value, `2 ^ (-1022)`. -/
def eps : ℝ := 1 / 2 ^ 1022

/-- infty of the source (line 125): `std::numeric_limits<Real>::max()`,
the largest finite binary64 value, `(2 - 2 ^ (-52)) * 2 ^ 1023`. -/
def infty : ℝ := (2 - 1 / 2 ^ 52) * 2 ^ 1023

/-- small_one of the source (line 126): `1 - 16 * eps`. -/
def small_one : ℝ := 1 - 16 * eps

/-- big_one of the source (line 127): `1 + 16 * eps`. -/
def big_one : ℝ := 1 + 16 * eps

/-- g_factor of the source (line 128). -/
def g_factor : ℝ := 4

/-- norm_threshold of the source (line 130): `0.99 * 0.99 + 16 * eps`. -/
def norm_threshold : ℝ := (99 / 100) * (99 / 100) + 16 * eps

/-- half of the source (line 119). -/
def half : ℝ := 1 / 2

/-- Machine epsilon of binary64, `2 ^ (-52)` (what `std::numeric_limits<double>::epsilon()`
would be).  This is NOT the source's `eps`; it appears here because claim C6
glosses the shift-vector threshold with it. -/
def machineEps : ℝ := 1 / 2 ^ 52

/-- Modelled from the spec: `Setting_T` is declared in `SamplerBase`, which is
not among the repository files under src/; the recognised options and their
roles are taken from spec §6.  Iteration caps are modelled as `ℕ`. -/
structure Settings where
  tolerance : ℝ
  give_up_tolerance : ℝ
  regularization : ℝ
  max_iter : ℕ
  Armijo_slope_factor : ℝ
  Armijo_shrink_factor : ℝ
  max_backtrackings : ℕ

/-- State of one `Sampler<3,Real,Int>` object with `edge_count = n`
(the protected members of Sampler.hpp, lines 79-116).  The vertex buffer `p`
is omitted: no claim refers to it.  The `bool` flags are modelled as `Prop`. -/
structure SState (n : ℕ) where
  x : Fin n → Fin 3 → ℝ
  y : Fin n → Fin 3 → ℝ
  r : Fin n → ℝ
  rho : Fin n → ℝ
  total_r_inv : ℝ
  w : Fin 3 → ℝ
  u : Fin 3 → ℝ
  z : Fin 3 → ℝ
  A : Fin 3 → Fin 3 → ℝ
  F : Fin 3 → ℝ
  DF : Fin 3 → Fin 3 → ℝ
  iter : ℕ
  squared_residual : ℝ
  residual : ℝ
  lambda_min : ℝ
  q : ℝ
  errorestimator : ℝ
  linesearchQ : Prop
  succeededQ : Prop
  continueQ : Prop
  ArmijoQ : Prop

/-- Sampler::ReadEdgeLengths (lines 781-793): copy `r_in` into `r`, then set
`total_r_inv` to one over the sum of the copied lengths. -/
def readEdgeLengths {n : ℕ} (s : SState n) (r_in : Fin n → ℝ) : SState n :=
  { s with r := r_in, total_r_inv := 1 / (∑ i, r_in i) }

/-- Sampler::ReadRho (lines 801-804): copy the argument into `rho`. -/
def readRho {n : ℕ} (s : SState n) (rho_in : Fin n → ℝ) : SState n :=
  { s with rho := rho_in }

/-- The `(r_in, rho_in, edge_count_, settings_)` constructor (lines 57-74),
restricted to the fields it initialises that the claims read.  Note line 73 of
the source: it calls `ReadRho(r_in)` — the `rho_in` argument is never used. -/
def samplerCtor {n : ℕ} (s0 : SState n) (r_in rho_in : Fin n → ℝ) : SState n :=
  readRho (readEdgeLengths s0 r_in) r_in

/-- Sampler::ComputeShiftVector (lines 807-825): `w_i = (Σ_k x_{k,i} r_k) * total_r_inv`. -/
def computeShiftVector {n : ℕ} (s : SState n) : SState n :=
  { s with w := fun i => (∑ k, s.x k i * s.r k) * s.total_r_inv }

/-- Sampler::ReadShiftVector (lines 827-843): copy `w_in` into `w`; if its
squared norm exceeds `small_one`, fall back to the Euclidean barycentre. -/
def readShiftVector {n : ℕ} (s : SState n) (w_in : Fin 3 → ℝ) : SState n :=
  if (∑ i, w_in i * w_in i) > small_one then computeShiftVector { s with w := w_in }
  else { s with w := w_in }

/-- Modelled from the spec: `ShiftMap<AmbDim,Real,Int>::Shift` lives in a file
that is not under src/ (Sampler.hpp only calls `S.Shift(x, w, y, edge_count, one)`,
line 634).  Per spec §4.2: with `ww = ⟨w,w⟩` and `wx = ⟨w,x_k⟩`,
`y_k = ((1 - ww) x_k + (2 wx - 2) w) / ((1 + ww) - 2 wx)`, and if
`ww > norm_threshold` every `y_k` is renormalised to the unit sphere. -/
def shiftMap (n : ℕ) (w : Fin 3 → ℝ) (x : Fin n → Fin 3 → ℝ) : Fin n → Fin 3 → ℝ :=
  let ww := ∑ i, w i * w i
  let y0 : Fin n → Fin 3 → ℝ := fun k i =>
    ((1 - ww) * x k i + (2 * (∑ j, w j * x k j) - 2) * w i)
      / ((1 + ww) - 2 * (∑ j, w j * x k j))
  if ww > norm_threshold then
    fun k i => y0 k i / Real.sqrt (∑ j, y0 k j * y0 k j)
  else y0

/-- Sampler::Shift (lines 632-635): shift the input measure along `w`. -/
def shiftS {n : ℕ} (s : SState n) : SState n :=
  { s with y := shiftMap n s.w s.x }

/-- Sampler::InverseShift (lines 604-630): shift the point `z` along `-w` to
obtain the updated `w`. -/
def inverseShift {n : ℕ} (s : SState n) : SState n :=
  let ww := ∑ i, s.w i * s.w i
  let wz2 := 2 * ∑ i, s.w i * s.z i
  let zz := ∑ i, s.z i * s.z i
  let a := 1 - ww
  let b := 1 + zz + wz2
  let c := big_one + wz2 + ww * zz
  let d := 1 / c
  { s with w := fun i => (a * s.z i + b * s.w i) * d }

/-- Sampler::Potential (lines 271-301): the hyperbolic merit function at the
tangent step stored in `z`. -/
def potential {n : ℕ} (s : SState n) : ℝ :=
  let zz := ∑ i, s.z i * s.z i
  let a := big_one + zz
  let b := 1 / (big_one - zz)
  (∑ k, s.r k * Real.log |(a - 2 * ∑ i, s.y k i * s.z i) * b|) * s.total_r_inv

/-- Sampler::tanhc (lines 1592-1617): `tanh(t)/t` via a (4,4) Padé approximant
for `t² ≤ 1`, directly for `t² ≤ 7`, and as `1/|t|` beyond. -/
def tanhc (t : ℝ) : ℝ :=
  let t2 := t * t
  if t2 ≤ 1 then
    (1 + t2 * (7 / 51 + t2 * (1 / 255 + t2 * (2 / 69615 + t2 * (1 / 34459425)))))
      / (1 + t2 * (8 / 17 + t2 * (7 / 255 + t2 * (4 / 9945 + t2 * (1 / 765765)))))
  else if t2 ≤ 7 then Real.tanh t / t
  else 1 / |t|

/-- Sampler::DifferentialAndHessian_Hyperbolic (lines 465-527).  The two
accumulation passes (overwrite with `k = 0`, add `k = 1 .. edge_count-1`)
are written as one sum over all edges; the subsequent scaling, halving of `F`
and the identity added to the diagonal of `DF` afterwards follow the source.
`DF` is only written on its upper triangle (`j ≥ i`), as in the source. -/
def differentialAndHessian {n : ℕ} (s : SState n) : SState n :=
  let F1 : Fin 3 → ℝ := fun i => (-(∑ k, s.r k * s.y k i)) * s.total_r_inv
  let sq := ∑ i, F1 i * F1 i
  { s with
    F := fun i => F1 i * half
    DF := fun i j =>
      if i ≤ j then
        (-(∑ k, s.r k * s.y k i * s.y k j)) * s.total_r_inv + (if i = j then 1 else 0)
      else s.DF i j
    squared_residual := sq
    residual := Real.sqrt sq }

/-- One pivot step of Sampler::Cholesky (lines 1478-1498), in-place on the
upper triangle: scale row `k` right of the diagonal by `1/√(A k k)`, put the
pivot root on the diagonal, then update the trailing upper triangle. -/
def cholStep {d : ℕ} (A : Fin d → Fin d → ℝ) (k : Fin d) : Fin d → Fin d → ℝ :=
  let a := Real.sqrt (A k k)
  let ainv := 1 / a
  let R : Fin d → Fin d → ℝ := fun i j =>
    if i = k ∧ k < j then A i j * ainv else if i = k ∧ j = k then a else A i j
  fun i j => if k < i ∧ i ≤ j then R i j - R k i * R k j else R i j

/-- Sampler::Cholesky (lines 1478-1498): the full in-place factorisation.
The source performs no test on the pivots; it is a total function. -/
def cholesky (d : ℕ) (A : Fin d → Fin d → ℝ) : Fin d → Fin d → ℝ :=
  (List.finRange d).foldl cholStep A

/-- One step of the factorisation as spec §4.1 words it: the step of the
source, but failing with `none` (the `NonPositiveDefinite` error kind) when
the pivot about to be processed is `≤ 0`. -/
def cholSpecStep {d : ℕ} (oa : Option (Fin d → Fin d → ℝ)) (k : Fin d) :
    Option (Fin d → Fin d → ℝ) :=
  match oa with
  | none => none
  | some A => if A k k ≤ 0 then none else some (cholStep A k)

/-- Modelled from the spec (§4.1, §7): `Cholesky(A)` that "fails with
`NonPositiveDefinite` if a pivot is ≤ 0", for comparison with the source's
unchecked `cholesky`. -/
def choleskySpec (d : ℕ) (A : Fin d → Fin d → ℝ) : Option (Fin d → Fin d → ℝ) :=
  (List.finRange d).foldl cholSpecStep (some A)

/-- Sampler::CholeskySolve (lines 1500-1523), lower triangular substitution:
the in-place loop `u[i] -= A[j][i] u[j] (j < i); u[i] /= A[i][i]` for
increasing `i`, reading the already updated entries. -/
def cholSolveFwdStep {d : ℕ} (A : Fin d → Fin d → ℝ) (u : Fin d → ℝ) (i : Fin d) :
    Fin d → ℝ :=
  Function.update u i ((u i - ∑ j ∈ Finset.univ.filter (· < i), A j i * u j) / A i i)

/-- Sampler::CholeskySolve (lines 1500-1523), upper triangular substitution
for decreasing `i`. -/
def cholSolveBwdStep {d : ℕ} (A : Fin d → Fin d → ℝ) (u : Fin d → ℝ) (i : Fin d) :
    Fin d → ℝ :=
  Function.update u i ((u i - ∑ j ∈ Finset.univ.filter (i < ·), A i j * u j) / A i i)

/-- Sampler::CholeskySolve (lines 1500-1523): forward then backward
substitution, in place on `u`. -/
def cholSolve (d : ℕ) (A : Fin d → Fin d → ℝ) (u : Fin d → ℝ) : Fin d → ℝ :=
  (List.finRange d).reverse.foldl (cholSolveBwdStep A)
    ((List.finRange d).foldl (cholSolveFwdStep A) u)

/-- Sampler::SmallestEigenvalue (lines 1525-1590), the `AmbDim == 3` branch.
It receives the two member matrices it reads: `DF` (diagonal, and the
off-diagonal entries of the first branch condition) and the scratch matrix
`A` — the source reads `A[0][1]`, `A[0][2]`, `A[1][2]` (lines 1562-1564),
not `DF`, for the off-diagonal entries of the scaled matrix `B`. -/
def smallestEigenvalue3 (DF A : Fin 3 → Fin 3 → ℝ) : ℝ :=
  let p1 := DF 0 1 * DF 0 1 + DF 0 2 * DF 0 2 + DF 1 2 * DF 1 2
  if Real.sqrt p1 <
      eps * Real.sqrt (DF 0 0 * DF 0 0 + DF 1 1 * DF 1 1 + DF 2 2 * DF 2 2) then
    min (DF 0 0) (min (DF 1 1) (DF 2 2))
  else
    let q := (DF 0 0 + DF 1 1 + DF 2 2) / 3
    let d0 := DF 0 0 - q
    let d1 := DF 1 1 - q
    let d2 := DF 2 2 - q
    let p2 := d0 * d0 + d1 * d1 + d2 * d2 + 2 * p1
    let p := Real.sqrt (p2 / 6)
    let pinv := 1 / p
    let b11 := d0 * pinv
    let b22 := d1 * pinv
    let b33 := d2 * pinv
    let b12 := A 0 1 * pinv
    let b13 := A 0 2 * pinv
    let b23 := A 1 2 * pinv
    let r := half * (2 * b12 * b23 * b13 - b11 * b23 * b23 - b12 * b12 * b33
      + b11 * b22 * b33 - b13 * b13 * b22)
    let phi :=
      if r ≤ -1 then Real.pi / 3 else if 1 ≤ r then 0 else Real.arccos r / 3
    q + 2 * p * Real.cos (phi + 2 * Real.pi / 3)

/-- Sampler::SearchDirection_Hyperbolic (lines 529-583): the termination
decision, then the regularised system `A = DF + c·I` (upper triangle) is
factorised and `u = -F` solved in place. -/
def searchDirection {n : ℕ} (c : Settings) (s : SState n) : SState n :=
  let s1 : SState n :=
    if s.residual < 100 * c.tolerance then
      let lm := smallestEigenvalue3 s.DF s.A
      let q := 4 * s.residual / (lm * lm)
      if q < 1 then
        let ee := half * lm * q
        { s with
          lambda_min := lm
          q := q
          errorestimator := ee
          linesearchQ := False
          continueQ := ee > c.tolerance
          succeededQ := ¬(ee > c.tolerance) }
      else
        { s with
          lambda_min := lm
          q := q
          errorestimator := infty
          linesearchQ := c.Armijo_slope_factor > 0
          continueQ := s.residual > c.give_up_tolerance }
    else
      { s with
        q := big_one
        lambda_min := eps
        errorestimator := infty
        linesearchQ := c.Armijo_slope_factor > 0
        continueQ := s.residual > max c.give_up_tolerance c.tolerance }
  let creg := c.regularization * s1.squared_residual
  let s2 : SState n :=
    { s1 with A := fun i j =>
        if i ≤ j then s1.DF i j + (if i = j then creg else 0) else s1.A i j }
  let s3 : SState n := { s2 with A := cholesky 3 s2.A }
  let s4 : SState n := { s3 with u := fun i => -s3.F i }
  { s4 with u := cholSolve 3 s4.A s4.u }

/-- The backtracking loop of Sampler::LineSearch_Hyperbolic_Potential
(lines 433-455), with the remaining backtrackings as fuel; carries the
current `tau` and `phi_tau`.  Each pass shrinks `tau`, recomputes the tangent
step `z` and the potential, and re-tests the Armijo predicate. -/
def lsBacktrack {n : ℕ} (c : Settings) (Dphi0 u_norm : ℝ) :
    ℕ → ℝ → ℝ → SState n → SState n
  | 0, _, _, s => s
  | b + 1, tau, phi_tau, s =>
    if s.ArmijoQ then s
    else
      let tau1 := c.Armijo_shrink_factor * tau
      let tau2 := -half * c.Armijo_slope_factor * tau * tau * Dphi0
        / (phi_tau - tau * Dphi0)
      let tau3 := max tau1 tau2
      let s1 : SState n := { s with z := fun i => (tau3 * tanhc (tau3 * u_norm)) * s.u i }
      let phi1 := potential s1
      let s2 : SState n := { s1 with ArmijoQ := phi1 - c.Armijo_slope_factor * tau3 * Dphi0 < 0 }
      lsBacktrack c Dphi0 u_norm b tau3 phi1 s2

/-- Sampler::LineSearch_Hyperbolic_Potential (lines 383-463): shoot `z` along
`u` with `tau = 1`, optionally run the Armijo backtracking on the potential,
then `InverseShift` and `Shift`. -/
def lineSearch {n : ℕ} (c : Settings) (s : SState n) : SState n :=
  let u_norm := Real.sqrt (∑ i, s.u i * s.u i)
  let s0 : SState n := { s with z := fun i => (1 * tanhc (1 * u_norm)) * s.u i }
  let s1 : SState n :=
    if s0.linesearchQ then
      let Dphi0 := g_factor * ∑ i, s0.F i * s0.u i
      let phi_tau := potential s0
      let s0a : SState n := { s0 with ArmijoQ := phi_tau - c.Armijo_slope_factor * 1 * Dphi0 < 0 }
      lsBacktrack c Dphi0 u_norm c.max_backtrackings 1 phi_tau s0a
    else s0
  shiftS (inverseShift s1)

/-- The main loop of Sampler::Optimize (lines 148-157), with the remaining
iterations `max_iter - iter` as fuel: each pass increments `iter` by one, so
the fuel form is the `iter < max_iter` guard of the source's `while`. -/
def optimizeLoop {n : ℕ} (c : Settings) : ℕ → SState n → SState n
  | 0, s => s
  | f + 1, s =>
    if s.continueQ then
      optimizeLoop c f
        (searchDirection c (differentialAndHessian (lineSearch c { s with iter := s.iter + 1 })))
    else s

/-- Sampler::Optimize (lines 135-158): reset `iter`, shift, assemble the
differential and Hessian, pick a search direction, then run the main loop. -/
def optimize {n : ℕ} (c : Settings) (s : SState n) : SState n :=
  optimizeLoop c c.max_iter
    (searchDirection c (differentialAndHessian (shiftS { s with iter := 0 })))

/-- The matrix accumulated into the scratch `A` by
Sampler::ComputeEdgeQuotientSpaceSamplingCorrection (lines 181-209):
`A[j][i]` for `j ≥ i` is first overwritten with `ρ_0² y_{0,i} y_{0,j}` and
then the loop at line 197 adds `ρ_k² y_{k,i} y_{k,j}` for every
`k = 0 .. edge_count-1` — including `k = 0` again.  Entries above the
diagonal are never written nor read by the d = 3 branch; they are 0 here. -/
def sigmaAccum (n : ℕ) (rho : Fin (n + 1) → ℝ) (y : Fin (n + 1) → Fin 3 → ℝ) :
    Fin 3 → Fin 3 → ℝ :=
  fun j i =>
    if i ≤ j then
      rho 0 * rho 0 * y 0 i * y 0 j + ∑ k, rho k * rho k * y k i * y k j
    else 0

/-- The `AmbDim == 3` fast path of
Sampler::ComputeEdgeQuotientSpaceSamplingCorrection (lines 213-237):
the closed-form cubic in the entries of the accumulated matrix,
then `χ = 1/√det`. -/
def edgeQuotientCorrection3 (n : ℕ) (rho : Fin (n + 1) → ℝ)
    (y : Fin (n + 1) → Fin 3 → ℝ) : ℝ :=
  let A := sigmaAccum n rho y
  let sq00 := A 0 0 * A 0 0
  let sq11 := A 1 1 * A 1 1
  let sq22 := A 2 2 * A 2 2
  let sq10 := A 1 0 * A 1 0
  let sq20 := A 2 0 * A 2 0
  let sq21 := A 2 1 * A 2 1
  let det := |A 0 0 * (sq11 + sq22 - sq10 - sq20)
    + A 1 1 * (sq00 + sq22 - sq10 - sq21)
    + A 2 2 * (sq00 + sq11 - sq20 - sq21)
    + 2 * (A 0 0 * A 1 1 * A 2 2 - A 1 0 * A 2 0 * A 2 1)|
  1 / Real.sqrt det

/-- The generic path of the same function (lines 239-255): given the
eigenvalues `λ` of the accumulated matrix (the source obtains them from
Eigen's self-adjoint eigensolver), `χ = 1/√(Π_{i<j} (λ_i + λ_j))`, the
product accumulated pair by pair as in the source's double loop. -/
def edgeQuotientCorrectionGeneric (lambda : Fin 3 → ℝ) : ℝ :=
  1 / Real.sqrt (1 * (lambda 0 + lambda 1) * (lambda 0 + lambda 2)
    * (lambda 1 + lambda 2))

/-- The matrix `Σ = Σ_k ρ_k² y_k y_kᵀ` as the spec (§4.5) and claim C7 word
it — each edge counted once. -/
def sigmaSpec (m : ℕ) (rho : Fin m → ℝ) (y : Fin m → Fin 3 → ℝ) :
    Matrix (Fin 3) (Fin 3) ℝ :=
  Matrix.of fun i j => ∑ k, rho k * rho k * (y k i * y k j)

/-- `t` is an eigenvalue of `M`: some nonzero vector satisfies `M v = t v`. -/
def IsEigenvalue (M : Matrix (Fin 3) (Fin 3) ℝ) (t : ℝ) : Prop :=
  ∃ v : Fin 3 → ℝ, v ≠ 0 ∧ M.mulVec v = t • v

/-- The extents Sampler::Sample_Binned actually uses (lines 1045-1063,
1075-1076, 1095-1096): the requested `moment_count_` is clamped below by 3,
the requested `bin_count_` below by 1, and the global and thread-local
tensors, the bin guard bounds and the reduction lengths are all built from
the clamped values. -/
structure BinnedSetup where
  fun_count : ℤ
  bin_count : ℤ
  moment_count : ℤ
  lower : ℤ
  upper : ℤ
  bins_size : ℤ
  moments_size : ℤ

/-- Sampler::Sample_Binned, set-up phase (lines 1045-1076): clamp the extents
and lay out the `3 × fun_count × bin_count` bins tensor and the
`3 × fun_count × moment_count` moments tensor. -/
def sampleBinnedSetup (fun_count bin_count_ moment_count_ : ℤ) : BinnedSetup :=
  let moment_count := max 3 moment_count_
  let bin_count := max bin_count_ 1
  { fun_count := fun_count
    bin_count := bin_count
    moment_count := moment_count
    lower := 0
    upper := bin_count - 1
    bins_size := 3 * fun_count * bin_count
    moments_size := 3 * fun_count * moment_count }

/-- The per-sample row of values `{1, K, K_quot}` of Sample_Binned
(line 1122). -/
def binTriple (K K_quot : ℝ) : Fin 3 → ℝ := ![1, K, K_quot]

/-- Sampler::Sample_Binned, the accumulation for one sample and one
functional `i` (lines 1116-1151): `bin_idx = ⌊factor · (val - lo)⌋` with
`factor = bin_count/(hi - lo)`; the triple `{1, K, K_quot}` is added to
`bins(·, i, bin_idx)` exactly when `lower ≤ bin_idx ≤ upper`; and for every
`j < moment_count` the triple times `val^j` is added to `moments(·, i, j)`
(the source keeps the running products `values[·] *= val`, which hold
`val^j` when moment `j` is added). -/
def sampleBinnedAccum (bin_count : ℤ) (moment_count : ℕ) (lo hi : ℝ) (i : ℕ)
    (val K K_quot : ℝ) (bins : Fin 3 → ℕ → ℤ → ℝ) (moments : Fin 3 → ℕ → ℕ → ℝ) :
    (Fin 3 → ℕ → ℤ → ℝ) × (Fin 3 → ℕ → ℕ → ℝ) :=
  let factor : ℝ := (bin_count : ℝ) / (hi - lo)
  let bin_idx : ℤ := ⌊factor * (val - lo)⌋
  let lower : ℤ := 0
  let upper : ℤ := bin_count - 1
  let bins1 :=
    if bin_idx ≤ upper ∧ lower ≤ bin_idx then
      fun row i2 b =>
        if i2 = i ∧ b = bin_idx then bins row i2 b + binTriple K K_quot row
        else bins row i2 b
    else bins
  let moments1 := fun row i2 j =>
    if i2 = i ∧ j < moment_count then
      moments row i2 j + binTriple K K_quot row * val ^ j
    else moments row i2 j
  (bins1, moments1)

/-- The flat bins and moments arrays NormalizeBinnedSamples works on
(row-major `[weight 0..2, functional, bin/moment]`). -/
structure NBState where
  bins : ℕ → ℝ
  moments : ℕ → ℝ

/-- Semantics of the external helper `scale_buffer(factor, ptr, len)`
(called at lines 1195-1196): multiply the `len` entries starting at `start`
by `factor`, leaving everything else unchanged. -/
def scaleSlice (f : ℕ → ℝ) (start len : ℕ) (factor : ℝ) : ℕ → ℝ :=
  fun idx => if start ≤ idx ∧ idx < start + len then factor * f idx else f idx

/-- The body of Sampler::NormalizeBinnedSamples for one weight row `i` and
one functional `j` (lines 1186-1196): read the total mass
`moments[(i·fun_count+j)·moment_count]`, then scale the bin slice and the
moment slice by its reciprocal. -/
def nbStep (fun_count bin_count moment_count : ℕ) (st : NBState) (i j : ℕ) : NBState :=
  let base_b := (i * fun_count + j) * bin_count
  let base_m := (i * fun_count + j) * moment_count
  let factor := 1 / st.moments base_m
  { bins := scaleSlice st.bins base_b bin_count factor
    moments := scaleSlice st.moments base_m moment_count factor }

/-- The inner `for j < fun_count` loop of NormalizeBinnedSamples for a fixed
weight row `i`. -/
def nbInner (fun_count bin_count moment_count : ℕ) (i : ℕ) (st : NBState) : NBState :=
  (List.range fun_count).foldl (fun s j => nbStep fun_count bin_count moment_count s i j) st

/-- Sampler::NormalizeBinnedSamples (lines 1173-1200): the outer
`for i < 3` loop, unrolled. -/
def normalizeBinnedSamples (fun_count bin_count moment_count : ℕ) (st : NBState) : NBState :=
  nbInner fun_count bin_count moment_count 2
    (nbInner fun_count bin_count moment_count 1
      (nbInner fun_count bin_count moment_count 0 st))

/-- A concrete solver state with every numeric field 0 and every flag false,
used to instantiate the state-threading operations at concrete inputs. -/
def zeroState (n : ℕ) : SState n where
  x := fun _ _ => 0
  y := fun _ _ => 0
  r := fun _ => 0
  rho := fun _ => 0
  total_r_inv := 0
  w := fun _ => 0
  u := fun _ => 0
  z := fun _ => 0
  A := fun _ _ => 0
  F := fun _ => 0
  DF := fun _ _ => 0
  iter := 0
  squared_residual := 0
  residual := 0
  lambda_min := 0
  q := 0
  errorestimator := 0
  linesearchQ := False
  succeededQ := False
  continueQ := False
  ArmijoQ := False

/-- C1: the claim states that after the `(r_in, rho_in, n, settings)`
constructor, `Rho()` returns the values of `rho_in`.  The source (line 73)
calls `ReadRho(r_in)`, so `rho` receives the edge lengths instead: with
`r_in = (1, 2)` and `rho_in = (3, 4)`, the stored `rho` is `(1, 2) ≠ (3, 4)`.
This theorem evaluates the constructor at that failing input. -/
theorem C1_constructor_rho_evaluation :
    (samplerCtor (zeroState 2) ![1, 2] ![3, 4]).rho = ![(1 : ℝ), 2] ∧
    (samplerCtor (zeroState 2) ![1, 2] ![3, 4]).rho ≠ ![(3 : ℝ), 4] := by
  refine ⟨rfl, fun h => ?_⟩
  have h12 : ![(1 : ℝ), 2] = ![(3 : ℝ), 4] := h
  have h0 := congrFun h12 0
  simp only [Matrix.cons_val_zero] at h0
  norm_num at h0

/-- C10: Sample_Binned silently clamps its size arguments: the extents it
uses for the output tensors are `moment_count = max(3, moment_count_)` and
`bin_count = max(bin_count_, 1)`, the reduction lengths are
`3·fun_count·(clamped extent)`, and when the request is below the clamp the
used extent is not the requested one. -/
theorem C10_sample_binned_extent_clamping (fc bc mc : ℤ) :
    (sampleBinnedSetup fc bc mc).bin_count = max bc 1 ∧
    (sampleBinnedSetup fc bc mc).moment_count = max 3 mc ∧
    (sampleBinnedSetup fc bc mc).bins_size = 3 * fc * max bc 1 ∧
    (sampleBinnedSetup fc bc mc).moments_size = 3 * fc * max 3 mc ∧
    (sampleBinnedSetup fc bc mc).lower = 0 ∧
    (sampleBinnedSetup fc bc mc).upper = max bc 1 - 1 ∧
    (mc < 3 → (sampleBinnedSetup fc bc mc).moment_count ≠ mc) ∧
    (bc < 1 → (sampleBinnedSetup fc bc mc).bin_count ≠ bc) := by
  refine ⟨rfl, rfl, rfl, rfl, rfl, rfl, fun h => ?_, fun h => ?_⟩
  · simp only [sampleBinnedSetup]
    omega
  · simp only [sampleBinnedSetup]
    omega

lemma iter_shiftS {n : ℕ} (s : SState n) : (shiftS s).iter = s.iter := rfl

lemma iter_inverseShift {n : ℕ} (s : SState n) : (inverseShift s).iter = s.iter := rfl

lemma iter_differentialAndHessian {n : ℕ} (s : SState n) :
    (differentialAndHessian s).iter = s.iter := rfl

lemma iter_searchDirection {n : ℕ} (c : Settings) (s : SState n) :
    (searchDirection c s).iter = s.iter := by
  unfold searchDirection
  dsimp only
  split_ifs <;> rfl

lemma iter_lsBacktrack {n : ℕ} (c : Settings) (Dphi0 u_norm : ℝ) :
    ∀ (fuel : ℕ) (tau phi : ℝ) (s : SState n),
      (lsBacktrack c Dphi0 u_norm fuel tau phi s).iter = s.iter := by
  intro fuel
  induction fuel with
  | zero => intro tau phi s; rfl
  | succ b ih =>
    intro tau phi s
    unfold lsBacktrack
    split_ifs
    · rfl
    · exact ih _ _ _

lemma iter_lineSearch {n : ℕ} (c : Settings) (s : SState n) :
    (lineSearch c s).iter = s.iter := by
  unfold lineSearch
  dsimp only
  split_ifs
  · rw [iter_shiftS, iter_inverseShift, iter_lsBacktrack]
  · rw [iter_shiftS, iter_inverseShift]

lemma optimizeLoop_iter_le {n : ℕ} (c : Settings) :
    ∀ (fuel : ℕ) (s : SState n), (optimizeLoop c fuel s).iter ≤ s.iter + fuel := by
  intro fuel
  induction fuel with
  | zero => intro s; exact Nat.le_refl _
  | succ f ih =>
    intro s
    unfold optimizeLoop
    split_ifs
    · refine (ih _).trans ?_
      rw [iter_searchDirection, iter_differentialAndHessian, iter_lineSearch]
      show s.iter + 1 + f ≤ s.iter + (f + 1)
      omega
    · omega

/-- C5: `Optimize` always terminates (it is a total function of the state),
and it executes at most `max_iter` passes of the main loop: the final `iter`
counter (a natural number, so `0 ≤ iter` holds by type) is at most
`settings.max_iter`, for every setting and every solver state. -/
theorem C5_optimize_iteration_bound {n : ℕ} (c : Settings) (s : SState n) :
    (optimize c s).iter ≤ c.max_iter := by
  unfold optimize
  refine (optimizeLoop_iter_le c c.max_iter _).trans ?_
  rw [iter_searchDirection, iter_differentialAndHessian, iter_shiftS]
  show 0 + c.max_iter ≤ c.max_iter
  omega

/-- C4: in every call to SearchDirection_Hyperbolic with
`residual < 100 · tolerance`, the solver stores as `lambda_min` the value of
`SmallestEigenvalue` on the pre-regularisation state (`DF` before `c·I` is
added, together with the scratch matrix `A` it reads), sets
`q = 4·residual/λ²`; if `q < 1` it sets the error estimator to `½·λ·q`,
disables line search and continues iff the estimator exceeds `tolerance`;
if `q ≥ 1` it sets the estimator to the sentinel `infty`, enables line
search iff `Armijo_slope_factor > 0`, and continues iff
`residual > give_up_tolerance`. -/
theorem C4_search_direction_kantorovich {n : ℕ} (c : Settings) (s : SState n)
    (hres : s.residual < 100 * c.tolerance) :
    (searchDirection c s).lambda_min = smallestEigenvalue3 s.DF s.A ∧
    (searchDirection c s).q =
      4 * s.residual / (smallestEigenvalue3 s.DF s.A * smallestEigenvalue3 s.DF s.A) ∧
    ((searchDirection c s).q < 1 →
      (searchDirection c s).errorestimator =
        half * smallestEigenvalue3 s.DF s.A * (searchDirection c s).q ∧
      ¬(searchDirection c s).linesearchQ ∧
      ((searchDirection c s).continueQ ↔
        (searchDirection c s).errorestimator > c.tolerance)) ∧
    (1 ≤ (searchDirection c s).q →
      (searchDirection c s).errorestimator = infty ∧
      ((searchDirection c s).linesearchQ ↔ c.Armijo_slope_factor > 0) ∧
      ((searchDirection c s).continueQ ↔ s.residual > c.give_up_tolerance)) := by
  unfold searchDirection
  dsimp only
  rw [if_pos hres]
  by_cases hq :
    4 * s.residual / (smallestEigenvalue3 s.DF s.A * smallestEigenvalue3 s.DF s.A) < 1
  · rw [if_pos hq]
    exact ⟨rfl, rfl, fun _ => ⟨rfl, not_false, Iff.rfl⟩,
      fun h2 => absurd hq (not_lt.mpr h2)⟩
  · rw [if_neg hq]
    exact ⟨rfl, rfl, fun h1 => absurd h1 hq, fun _ => ⟨rfl, Iff.rfl, Iff.rfl⟩⟩

/-- A concrete settings record with `tolerance = 1` and all other options 0,
for instantiating the solver theorems. -/
def cfgOne : Settings :=
  { tolerance := 1
    give_up_tolerance := 0
    regularization := 0
    max_iter := 0
    Armijo_slope_factor := 0
    Armijo_shrink_factor := 0
    max_backtrackings := 0 }

/-- Witness for C4 at the concrete input `cfgOne`, `zeroState 2`
(there `residual = 0 < 100 · 1`). -/
theorem C4_witness :
    (searchDirection cfgOne (zeroState 2)).lambda_min =
      smallestEigenvalue3 (zeroState 2).DF (zeroState 2).A :=
  (C4_search_direction_kantorovich cfgOne (zeroState 2)
    (by show (0 : ℝ) < 100 * 1; norm_num)).1

/-- The caller-supplied shift vector of the C6 counterexample: its squared
norm lies strictly between `1 - 16·machineEps` (the claim's threshold) and
`small_one = 1 - 16·eps` (the source's threshold). -/
def w6 : Fin 3 → ℝ := ![1 - 1 / 2 ^ 51, 0, 0]

/-- A concrete 2-edge state whose Euclidean barycentre is the origin:
`x = ((1,0,0), (-1,0,0))`, `r = (1/2, 1/2)`, `total_r_inv = 1`. -/
def s6 : SState 2 :=
  { zeroState 2 with
    x := ![![1, 0, 0], ![-1, 0, 0]]
    r := ![1 / 2, 1 / 2]
    total_r_inv := 1 }

lemma ww6_value : (∑ i, w6 i * w6 i) = (1 - 1 / 2 ^ 51) * (1 - 1 / 2 ^ 51) := by
  simp [w6, Fin.sum_univ_three]

lemma ww6_not_gt_small_one : ¬((∑ i, w6 i * w6 i) > small_one) := by
  rw [ww6_value]
  unfold small_one eps
  norm_num

/-- Counterexample to C6 as stated: with `w6` as above, `‖w6‖²` exceeds the
claim's threshold `1 - 16·machineEps` (machine epsilon `2⁻⁵²`), yet
ReadShiftVector keeps `w = w6` — whose first coordinate `1 - 2⁻⁵¹` differs
from the barycentre coordinate `Σ (r_k/R)·x_{k,0} = 0` — because the
source's threshold is `1 - 16·numeric_limits::min()`, not machine epsilon. -/
theorem C6_counterexample :
    (∑ i, w6 i * w6 i) > 1 - 16 * machineEps ∧
    (readShiftVector s6 w6).w 0 = 1 - 1 / 2 ^ 51 ∧
    (∑ k, s6.r k / (∑ j, s6.r j) * s6.x k 0) = 0 ∧
    (1 : ℝ) - 1 / 2 ^ 51 ≠ 0 := by
  refine ⟨?_, ?_, ?_, by norm_num⟩
  · rw [ww6_value]
    unfold machineEps
    norm_num
  · rw [readShiftVector, if_neg ww6_not_gt_small_one]
    simp [w6]
  · simp [s6, zeroState, Fin.sum_univ_two]

/-- C6 as amended: the discard threshold is `small_one = 1 - 16·eps` where
`eps` is `std::numeric_limits<Real>::min()` (the smallest positive normal,
`2⁻¹⁰²²` for double), not the machine epsilon: if `‖w_in‖²` exceeds it,
ReadShiftVector replaces `w` by the Euclidean barycentre
`Σ_k (r_k/R)·x_k`, `R = Σ_k r_k` (provided `total_r_inv` holds `1/R`, the
invariant ReadEdgeLengths maintains); otherwise `w` is `w_in` unchanged. -/
theorem C6_read_shift_vector {n : ℕ} (s : SState n) (w_in : Fin 3 → ℝ)
    (hR : s.total_r_inv = (∑ k, s.r k)⁻¹) :
    ((∑ i, w_in i * w_in i) > 1 - 16 * eps →
      ∀ i, (readShiftVector s w_in).w i = ∑ k, s.r k / (∑ j, s.r j) * s.x k i) ∧
    (¬((∑ i, w_in i * w_in i) > 1 - 16 * eps) →
      (readShiftVector s w_in).w = w_in) := by
  constructor
  · intro h i
    rw [readShiftVector]
    unfold small_one
    rw [if_pos h]
    show (∑ k, s.x k i * s.r k) * s.total_r_inv = _
    rw [hR, Finset.sum_mul]
    refine Finset.sum_congr rfl fun k _ => ?_
    rw [div_eq_mul_inv]
    ring
  · intro h
    rw [readShiftVector]
    unfold small_one
    rw [if_neg h]

/-- Witness for C6 at the concrete input `s6`, `w6`: the squared norm does
not exceed the source's threshold, so the caller's vector is kept. -/
theorem C6_witness : (readShiftVector s6 w6).w = w6 :=
  (C6_read_shift_vector s6 w6
    (by simp [s6, zeroState, Fin.sum_univ_two]; norm_num)).2 ww6_not_gt_small_one

lemma cholSpecFold_none {d : ℕ} :
    ∀ l : List (Fin d), l.foldl cholSpecStep none = none := by
  intro l
  induction l with
  | nil => rfl
  | cons k t ih => simpa [cholSpecStep] using ih

lemma cholFold_agree {d : ℕ} :
    ∀ (l : List (Fin d)) (A L : Fin d → Fin d → ℝ),
      l.foldl cholSpecStep (some A) = some L → l.foldl cholStep A = L := by
  intro l
  induction l with
  | nil =>
    intro A L h
    simpa using h
  | cons k t ih =>
    intro A L h
    simp only [List.foldl_cons, cholSpecStep] at h ⊢
    by_cases hp : A k k ≤ 0
    · rw [if_pos hp, cholSpecFold_none] at h
      exact absurd h (by simp)
    · rw [if_neg hp] at h
      exact ih _ _ h

/-- C2 as amended: the source's in-place Cholesky never reports an error —
it is a total function with no pivot test — and whenever the checked
factorisation of spec §4.1 (which fails with `NonPositiveDefinite` on a
pivot ≤ 0) succeeds with a factor `L`, the source produces that same `L`. -/
theorem C2_cholesky_unchecked (d : ℕ) (A L : Fin d → Fin d → ℝ)
    (h : choleskySpec d A = some L) : cholesky d A = L :=
  cholFold_agree (List.finRange d) A L h

lemma sqrt_four : Real.sqrt 4 = 2 := by
  rw [show (4 : ℝ) = 2 ^ 2 by norm_num, Real.sqrt_sq (by norm_num : (0 : ℝ) ≤ 2)]

lemma cholSpec_four : choleskySpec 1 ![![(4 : ℝ)]] = some ![![(2 : ℝ)]] := by
  show cholSpecStep (some ![![(4 : ℝ)]]) 0 = some ![![(2 : ℝ)]]
  rw [cholSpecStep]
  rw [if_neg (by norm_num : ¬(![![(4 : ℝ)]] 0 0 ≤ 0))]
  refine congrArg some (funext fun i => funext fun j => ?_)
  fin_cases i
  fin_cases j
  simp [cholStep, sqrt_four]

/-- Witness for C2 at the concrete input `A = [[4]]`: every pivot is
positive, the checked factorisation returns `[[2]]`, and the source's
unchecked factorisation produces the same factor. -/
theorem C2_cholesky_witness : cholesky 1 ![![(4 : ℝ)]] = ![![(2 : ℝ)]] :=
  C2_cholesky_unchecked 1 ![![(4 : ℝ)]] ![![(2 : ℝ)]] cholSpec_four

/-- Counterexample to C2 as stated: on `A = [[-1, 0], [0, 1]]` the first
pivot is `-1 ≤ 0`, so the claimed behaviour is a `NonPositiveDefinite`
failure (the checked model returns `none`), yet the source's factorisation
does not fail: it runs to completion and produces a factor — whose `(0,0)`
entry is the junk value `√(-1) = 0` of the real model (a NaN at run time). -/
theorem C2_cholesky_counterexample :
    choleskySpec 2 ![![(-1 : ℝ), 0], ![0, 1]] = none ∧
    cholesky 2 ![![(-1 : ℝ), 0], ![0, 1]] 0 0 = 0 := by
  constructor
  · show (cholSpecStep (cholSpecStep (some ![![(-1 : ℝ), 0], ![0, 1]]) 0) 1) = none
    rw [cholSpecStep]
    rw [if_pos (by norm_num : (![![(-1 : ℝ), 0], ![0, 1]] 0 0 ≤ 0))]
    rfl
  · show cholStep (cholStep ![![(-1 : ℝ), 0], ![0, 1]] 0) 1 0 0 = 0
    simp [cholStep, Real.sqrt_eq_zero'.mpr (by norm_num : (-1 : ℝ) ≤ 0)]

/-- C8: for every sample and functional `i` with value `val`, Sample_Binned
computes the bin index as `⌊(val - lo)·B/(hi - lo)⌋`; the triple
`{1, K, K_quot}` is added to `bins[·, i, bin]` if and only if
`0 ≤ bin < B` (all other bin entries are unchanged); and for every
`j ∈ [0, M)` the triple times `val^j` is added into `moments[·, i, j]`
whether or not `val` falls in range. -/
theorem C8_sample_binned_accumulation (B : ℤ) (M : ℕ) (lo hi : ℝ) (i : ℕ)
    (val K Kq : ℝ) (bins : Fin 3 → ℕ → ℤ → ℝ) (moments : Fin 3 → ℕ → ℕ → ℝ) :
    (∀ (row : Fin 3) (b : ℤ),
      (sampleBinnedAccum B M lo hi i val K Kq bins moments).1 row i b =
        if 0 ≤ ⌊(val - lo) * (B : ℝ) / (hi - lo)⌋ ∧
            ⌊(val - lo) * (B : ℝ) / (hi - lo)⌋ < B ∧
            b = ⌊(val - lo) * (B : ℝ) / (hi - lo)⌋ then
          bins row i b + binTriple K Kq row
        else bins row i b) ∧
    (∀ (row : Fin 3) (j : ℕ), j < M →
      (sampleBinnedAccum B M lo hi i val K Kq bins moments).2 row i j =
        moments row i j + binTriple K Kq row * val ^ j) := by
  have hbin : (B : ℝ) / (hi - lo) * (val - lo) = (val - lo) * (B : ℝ) / (hi - lo) := by
    ring
  constructor
  · intro row b
    unfold sampleBinnedAccum
    dsimp only
    rw [hbin]
    by_cases hg : ⌊(val - lo) * (B : ℝ) / (hi - lo)⌋ ≤ B - 1 ∧
        0 ≤ ⌊(val - lo) * (B : ℝ) / (hi - lo)⌋
    · rw [if_pos hg]
      by_cases hb : b = ⌊(val - lo) * (B : ℝ) / (hi - lo)⌋
      · rw [if_pos ⟨rfl, hb⟩, if_pos ⟨hg.2, by omega, hb⟩]
      · rw [if_neg fun hcon => hb hcon.2, if_neg fun hcon => hb hcon.2.2]
    · rw [if_neg hg, if_neg fun hcon => hg ⟨by omega, hcon.1⟩]
  · intro row j hj
    unfold sampleBinnedAccum
    dsimp only
    rw [if_pos ⟨rfl, hj⟩]

lemma slice_disjoint (m : ℕ) {t t2 k : ℕ} (hk : k < m) (hne : t2 ≠ t) :
    ¬(t2 * m ≤ t * m + k ∧ t * m + k < t2 * m + m) := by
  rintro ⟨h1, h2⟩
  rcases lt_or_gt_of_ne hne with hlt | hlt
  · have h5 : t2 * m + m ≤ t * m := by
      calc t2 * m + m = (t2 + 1) * m := by ring
        _ ≤ t * m := Nat.mul_le_mul_right m (Nat.succ_le_of_lt hlt)
    omega
  · have h5 : t * m + m ≤ t2 * m := by
      calc t * m + m = (t + 1) * m := by ring
        _ ≤ t2 * m := Nat.mul_le_mul_right m (Nat.succ_le_of_lt hlt)
    omega

lemma key_ne_cross {F i2 j2 ti tj : ℕ} (hj2 : j2 < F) (htj : tj < F)
    (hne : i2 ≠ ti) : i2 * F + j2 ≠ ti * F + tj := by
  have key_lt : ∀ a b c d : ℕ, c < F → a < b → a * F + c < b * F + d := by
    intro a b c d hc hab
    calc a * F + c < a * F + F := by omega
      _ = (a + 1) * F := by ring
      _ ≤ b * F := Nat.mul_le_mul_right F (Nat.succ_le_of_lt hab)
      _ ≤ b * F + d := Nat.le_add_right _ _
  rcases lt_or_gt_of_ne hne with hlt | hlt
  · exact Nat.ne_of_lt (key_lt _ _ _ _ hj2 hlt)
  · exact (Nat.ne_of_lt (key_lt _ _ _ _ htj hlt)).symm

lemma nbStep_moments_untouched (F B M : ℕ) (st : NBState) (i2 j2 t k : ℕ)
    (hk : k < M) (hne : i2 * F + j2 ≠ t) :
    (nbStep F B M st i2 j2).moments (t * M + k) = st.moments (t * M + k) := by
  unfold nbStep scaleSlice
  dsimp only
  rw [if_neg (slice_disjoint M hk hne)]

lemma nbStep_bins_untouched (F B M : ℕ) (st : NBState) (i2 j2 t k : ℕ)
    (hk : k < B) (hne : i2 * F + j2 ≠ t) :
    (nbStep F B M st i2 j2).bins (t * B + k) = st.bins (t * B + k) := by
  unfold nbStep scaleSlice
  dsimp only
  rw [if_neg (slice_disjoint B hk hne)]

lemma nbStep_scales (F B M : ℕ) (st : NBState) (i j : ℕ) :
    (∀ k < M, (nbStep F B M st i j).moments ((i * F + j) * M + k) =
      1 / st.moments ((i * F + j) * M) * st.moments ((i * F + j) * M + k)) ∧
    (∀ k < B, (nbStep F B M st i j).bins ((i * F + j) * B + k) =
      1 / st.moments ((i * F + j) * M) * st.bins ((i * F + j) * B + k)) := by
  unfold nbStep scaleSlice
  dsimp only
  constructor <;> intro k hk <;> rw [if_pos ⟨Nat.le_add_right _ _, by omega⟩]

lemma nbFold_untouched (F B M i2 t : ℕ) :
    ∀ (l : List ℕ) (st : NBState), (∀ j2 ∈ l, i2 * F + j2 ≠ t) →
      (∀ k < M, (l.foldl (fun s j => nbStep F B M s i2 j) st).moments (t * M + k) =
        st.moments (t * M + k)) ∧
      (∀ k < B, (l.foldl (fun s j => nbStep F B M s i2 j) st).bins (t * B + k) =
        st.bins (t * B + k)) := by
  intro l
  induction l with
  | nil => exact fun st _ => ⟨fun k _ => rfl, fun k _ => rfl⟩
  | cons j l ih =>
    intro st hne
    rw [List.foldl_cons]
    obtain ⟨ihm, ihb⟩ := ih (nbStep F B M st i2 j) fun j2 h => hne j2 (List.mem_cons_of_mem j h)
    have hj := hne j (List.mem_cons_self j l)
    exact ⟨fun k hk => (ihm k hk).trans (nbStep_moments_untouched F B M st i2 j t k hk hj),
      fun k hk => (ihb k hk).trans (nbStep_bins_untouched F B M st i2 j t k hk hj)⟩

lemma nbFold_hit (F B M i tj : ℕ) (hM : 0 < M) :
    ∀ (l : List ℕ) (st : NBState), l.Nodup → tj ∈ l →
      (∀ k < M, (l.foldl (fun s j => nbStep F B M s i j) st).moments ((i * F + tj) * M + k) =
        1 / st.moments ((i * F + tj) * M) * st.moments ((i * F + tj) * M + k)) ∧
      (∀ k < B, (l.foldl (fun s j => nbStep F B M s i j) st).bins ((i * F + tj) * B + k) =
        1 / st.moments ((i * F + tj) * M) * st.bins ((i * F + tj) * B + k)) := by
  intro l
  induction l with
  | nil => intro st _ hmem; cases hmem
  | cons j l ih =>
    intro st hnd hmem
    rw [List.foldl_cons]
    rcases List.mem_cons.mp hmem with heq | hmem2
    · subst heq
      obtain ⟨um, ub⟩ := nbFold_untouched F B M i (i * F + tj) l (nbStep F B M st i tj)
        (fun j2 h2 => by
          have hne : j2 ≠ tj := fun h => (List.nodup_cons.mp hnd).1 (h ▸ h2)
          omega)
      obtain ⟨sm, sb⟩ := nbStep_scales F B M st i tj
      exact ⟨fun k hk => (um k hk).trans (sm k hk),
        fun k hk => (ub k hk).trans (sb k hk)⟩
    · have hjne : i * F + j ≠ i * F + tj := by
        have : j ≠ tj := fun h => (List.nodup_cons.mp hnd).1 (h ▸ hmem2)
        omega
      obtain ⟨ihm, ihb⟩ := ih (nbStep F B M st i j) (List.nodup_cons.mp hnd).2 hmem2
      have hb0 : (nbStep F B M st i j).moments ((i * F + tj) * M) =
          st.moments ((i * F + tj) * M) := by
        have := nbStep_moments_untouched F B M st i j (i * F + tj) 0 hM hjne
        simpa using this
      constructor
      · intro k hk
        rw [ihm k hk, hb0, nbStep_moments_untouched F B M st i j (i * F + tj) k hk hjne]
      · intro k hk
        rw [ihb k hk, hb0, nbStep_bins_untouched F B M st i j (i * F + tj) k hk hjne]

lemma nbInner_untouched (F B M i2 ti tj : ℕ) (htj : tj < F) (hne : i2 ≠ ti)
    (st : NBState) :
    (∀ k < M, (nbInner F B M i2 st).moments ((ti * F + tj) * M + k) =
      st.moments ((ti * F + tj) * M + k)) ∧
    (∀ k < B, (nbInner F B M i2 st).bins ((ti * F + tj) * B + k) =
      st.bins ((ti * F + tj) * B + k)) :=
  nbFold_untouched F B M i2 (ti * F + tj) (List.range F) st
    (fun j2 h2 => key_ne_cross (List.mem_range.mp h2) htj hne)

lemma nbInner_hit (F B M i tj : ℕ) (htj : tj < F) (hM : 0 < M) (st : NBState) :
    (∀ k < M, (nbInner F B M i st).moments ((i * F + tj) * M + k) =
      1 / st.moments ((i * F + tj) * M) * st.moments ((i * F + tj) * M + k)) ∧
    (∀ k < B, (nbInner F B M i st).bins ((i * F + tj) * B + k) =
      1 / st.moments ((i * F + tj) * M) * st.bins ((i * F + tj) * B + k)) :=
  nbFold_hit F B M i tj hM (List.range F) st (List.nodup_range F)
    (List.mem_range.mpr htj)

/-- C9: NormalizeBinnedSamples scales, for every weight row `ti < 3` and
functional `tj < fun_count`, the whole bin slice `bins[ti, tj, :]` and the
whole moment slice `moments[ti, tj, :]` by the single factor
`1 / moments[ti, tj, 0]` read before the scaling; consequently, whenever
that total mass is nonzero, `moments[ti, tj, 0] = 1` after the call. -/
theorem C9_normalize_binned_scaling (F B M : ℕ) (st : NBState) (ti tj : ℕ)
    (hti : ti < 3) (htj : tj < F) (hM : 0 < M) :
    (∀ k < M, (normalizeBinnedSamples F B M st).moments ((ti * F + tj) * M + k) =
      1 / st.moments ((ti * F + tj) * M) * st.moments ((ti * F + tj) * M + k)) ∧
    (∀ k < B, (normalizeBinnedSamples F B M st).bins ((ti * F + tj) * B + k) =
      1 / st.moments ((ti * F + tj) * M) * st.bins ((ti * F + tj) * B + k)) ∧
    (st.moments ((ti * F + tj) * M) ≠ 0 →
      (normalizeBinnedSamples F B M st).moments ((ti * F + tj) * M) = 1) := by
  have main :
      (∀ k < M, (normalizeBinnedSamples F B M st).moments ((ti * F + tj) * M + k) =
        1 / st.moments ((ti * F + tj) * M) * st.moments ((ti * F + tj) * M + k)) ∧
      (∀ k < B, (normalizeBinnedSamples F B M st).bins ((ti * F + tj) * B + k) =
        1 / st.moments ((ti * F + tj) * M) * st.bins ((ti * F + tj) * B + k)) := by
    unfold normalizeBinnedSamples
    interval_cases ti
    · obtain ⟨h0m, h0b⟩ := nbInner_hit F B M 0 tj htj hM st
      obtain ⟨h1m, h1b⟩ := nbInner_untouched F B M 1 0 tj htj (by norm_num)
        (nbInner F B M 0 st)
      obtain ⟨h2m, h2b⟩ := nbInner_untouched F B M 2 0 tj htj (by norm_num)
        (nbInner F B M 1 (nbInner F B M 0 st))
      exact ⟨fun k hk => ((h2m k hk).trans (h1m k hk)).trans (h0m k hk),
        fun k hk => ((h2b k hk).trans (h1b k hk)).trans (h0b k hk)⟩
    · obtain ⟨h0m, h0b⟩ := nbInner_untouched F B M 0 1 tj htj (by norm_num) st
      obtain ⟨h1m, h1b⟩ := nbInner_hit F B M 1 tj htj hM (nbInner F B M 0 st)
      obtain ⟨h2m, h2b⟩ := nbInner_untouched F B M 2 1 tj htj (by norm_num)
        (nbInner F B M 1 (nbInner F B M 0 st))
      have hbase : (nbInner F B M 0 st).moments ((1 * F + tj) * M) =
          st.moments ((1 * F + tj) * M) := by
        have h := h0m 0 hM
        simpa using h
      exact ⟨fun k hk => by rw [h2m k hk, h1m k hk, hbase, h0m k hk],
        fun k hk => by rw [h2b k hk, h1b k hk, hbase, h0b k hk]⟩
    · obtain ⟨h0m, h0b⟩ := nbInner_untouched F B M 0 2 tj htj (by norm_num) st
      obtain ⟨h1m, h1b⟩ := nbInner_untouched F B M 1 2 tj htj (by norm_num)
        (nbInner F B M 0 st)
      obtain ⟨h2m, h2b⟩ := nbInner_hit F B M 2 tj htj hM
        (nbInner F B M 1 (nbInner F B M 0 st))
      have hbase : (nbInner F B M 1 (nbInner F B M 0 st)).moments ((2 * F + tj) * M) =
          st.moments ((2 * F + tj) * M) := by
        have ha := h1m 0 hM
        have hb2 := h0m 0 hM
        rw [add_zero] at ha hb2
        rw [ha, hb2]
      exact ⟨fun k hk => by rw [h2m k hk, hbase, h1m k hk, h0m k hk],
        fun k hk => by rw [h2b k hk, hbase, h1b k hk, h0b k hk]⟩
  refine ⟨main.1, main.2, fun hnz => ?_⟩
  have h0 := main.1 0 hM
  rw [add_zero] at h0
  rw [h0]
  exact one_div_mul_cancel hnz

/-- Concrete flat arrays for the C9 witness: every moment entry is 2 and
every bin entry is 6. -/
def nbSt9 : NBState :=
  { bins := fun _ => 6
    moments := fun _ => 2 }

/-- Witness for C9 at the concrete input `fun_count = bin_count =
moment_count = 1`, row 0, functional 0: the total mass 2 is nonzero and the
zeroth moment is rescaled to 1. -/
theorem C9_witness : (normalizeBinnedSamples 1 1 1 nbSt9).moments ((0 * 1 + 0) * 1) = 1 :=
  (C9_normalize_binned_scaling 1 1 1 nbSt9 0 0 (by norm_num) (by norm_num)
    (by norm_num)).2.2 (by norm_num [nbSt9])

/-- DF of the C3 failing input: the Hessian's stored upper triangle has
zero diagonal and all three off-diagonal entries 1. -/
def DF3 : Fin 3 → Fin 3 → ℝ := ![![0, 1, 1], ![0, 0, 1], ![0, 0, 0]]

/-- The scratch matrix `A` of the C3 failing input (a leftover Cholesky
factor from the previous iteration): its upper off-diagonal entries are -1. -/
def A3 : Fin 3 → Fin 3 → ℝ := ![![0, -1, -1], ![0, 0, -1], ![0, 0, 0]]

/-- The symmetric matrix whose stored triangle is `DF3`. -/
def M3 : Matrix (Fin 3) (Fin 3) ℝ := !![0, 1, 1; 1, 0, 1; 1, 1, 0]

lemma eig_M3_lower_bound (t : ℝ) (h : IsEigenvalue M3 t) : -1 ≤ t := by
  obtain ⟨v, hv, hMv⟩ := h
  have hdet : (M3 - t • 1).det = 0 := by
    refine Matrix.exists_mulVec_eq_zero_iff.mp ⟨v, hv, ?_⟩
    rw [Matrix.sub_mulVec, hMv, Matrix.smul_mulVec_assoc, Matrix.one_mulVec, sub_self]
  have hpoly : (t - 2) * (t + 1) ^ 2 = 0 := by
    have hd : (M3 - t • 1).det = -(t - 2) * (t + 1) ^ 2 := by
      simp [M3, Matrix.det_fin_three, Matrix.sub_apply, Matrix.smul_apply,
        Matrix.one_fin_three, Matrix.vecHead, Matrix.vecTail]
      ring
    rw [hd] at hdet
    linarith [hdet]
  rcases mul_eq_zero.mp hpoly with h1 | h1
  · linarith
  · have h2 : t + 1 = 0 := pow_eq_zero_iff (by norm_num) |>.mp h1
    linarith

/-- C3: the claim states that the `d = 3` closed-form fast path returns the
smallest eigenvalue of the symmetric matrix stored in `DF` (the Hessian
before regularisation) on the non-diagonal branch.  The source instead reads
the off-diagonal entries of the scaled matrix `B` from the Cholesky scratch
matrix `A` (lines 1562-1564), which at the call site holds a stale factor.
At the failing input (`DF3`, `A3`) — which takes the non-diagonal branch —
the code returns -2, while the matrix `M3` stored in `DF` has smallest
eigenvalue -1 (it is an eigenvalue, and every eigenvalue is ≥ -1); in
particular the returned value is not an eigenvalue of `M3` at all. -/
theorem C3_smallest_eigenvalue_bug :
    (∀ i j : Fin 3, i ≤ j → M3 i j = DF3 i j) ∧
    smallestEigenvalue3 DF3 A3 = -2 ∧
    IsEigenvalue M3 (-1) ∧
    (∀ t : ℝ, IsEigenvalue M3 t → -1 ≤ t) ∧
    ¬IsEigenvalue M3 (smallestEigenvalue3 DF3 A3) := by
  have hval : smallestEigenvalue3 DF3 A3 = -2 := by
    unfold smallestEigenvalue3
    simp only [DF3, A3, Matrix.cons_val_zero, Matrix.cons_val_one, Matrix.cons_val_two,
      Matrix.head_cons, Matrix.tail_cons]
    norm_num [Real.sqrt_one]
    rw [if_neg (not_lt.mpr (Real.sqrt_nonneg 3))]
    norm_num [half]
    rw [show Real.pi / 3 + 2 * Real.pi / 3 = Real.pi by ring, Real.cos_pi]
    norm_num
  refine ⟨?_, hval, ?_, eig_M3_lower_bound, ?_⟩
  · intro i j hij
    fin_cases i <;> fin_cases j <;> first
      | rfl
      | exact absurd hij (by decide)
  · refine ⟨![1, -1, 0], ?_, ?_⟩
    · intro h
      have h0 := congrFun h 0
      simp at h0
    · funext i
      fin_cases i <;>
        simp [M3, Matrix.mulVec, Matrix.dotProduct, Fin.sum_univ_three]
  · intro hcon
    rw [hval] at hcon
    have := eig_M3_lower_bound (-2) hcon
    norm_num at this

/-- The closed-form cubic of the d = 3 fast path (lines 221-234) is a
correct identity: for any symmetric 3×3 matrix whose characteristic
polynomial factors with roots `a, b, c`, the cubic in its entries
evaluates to `(a+b)(a+c)(b+c) = Π_{i<j}(λ_i+λ_j)`.  The C7 defect is
therefore only in which matrix the source accumulates, not in the cubic. -/
theorem edgeQuotient_cubic_eigen (m00 m01 m02 m11 m12 m22 a b c : ℝ)
    (hchar : ∀ t : ℝ,
      (!![m00, m01, m02; m01, m11, m12; m02, m12, m22]
        - t • (1 : Matrix (Fin 3) (Fin 3) ℝ)).det = (a - t) * ((b - t) * (c - t))) :
    m00 * (m11 * m11 + m22 * m22 - m01 * m01 - m02 * m02)
      + m11 * (m00 * m00 + m22 * m22 - m01 * m01 - m12 * m12)
      + m22 * (m00 * m00 + m11 * m11 - m02 * m02 - m12 * m12)
      + 2 * (m00 * m11 * m22 - m01 * m02 * m12) = (a + b) * ((a + c) * (b + c)) := by
  have h0 := hchar 0
  have h1 := hchar 1
  have h2 := hchar (-1)
  simp [Matrix.det_fin_three, Matrix.sub_apply, Matrix.smul_apply,
    Matrix.one_fin_three, Matrix.vecHead, Matrix.vecTail] at h0 h1 h2
  linear_combination
    ((m00 * m11 + m00 * m22 + m11 * m22 - m01 * m01 - m02 * m02 - m12 * m12) / 2
        - (a + b + c) / 2) * h1
    + ((m00 * m11 + m00 * m22 + m11 * m22 - m01 * m01 - m02 * m02 - m12 * m12) / 2
        + (a + b + c) / 2) * h2
    + (-(m00 * m11 + m00 * m22 + m11 * m22 - m01 * m01 - m02 * m02 - m12 * m12) - 1) * h0

/-- Complement to C7: with nonnegative eigenvalues `a, b, c` of a symmetric
matrix, `1/√|cubic|` — the fast path's formula applied to that matrix's
entries — coincides with the generic eigenvalue path on `(a, b, c)`. -/
theorem edgeQuotient_fast_generic_agree (m00 m01 m02 m11 m12 m22 a b c : ℝ)
    (hchar : ∀ t : ℝ,
      (!![m00, m01, m02; m01, m11, m12; m02, m12, m22]
        - t • (1 : Matrix (Fin 3) (Fin 3) ℝ)).det = (a - t) * ((b - t) * (c - t)))
    (ha : 0 ≤ a) (hb : 0 ≤ b) (hc : 0 ≤ c) :
    1 / Real.sqrt |m00 * (m11 * m11 + m22 * m22 - m01 * m01 - m02 * m02)
      + m11 * (m00 * m00 + m22 * m22 - m01 * m01 - m12 * m12)
      + m22 * (m00 * m00 + m11 * m11 - m02 * m02 - m12 * m12)
      + 2 * (m00 * m11 * m22 - m01 * m02 * m12)|
      = edgeQuotientCorrectionGeneric ![a, b, c] := by
  rw [edgeQuotient_cubic_eigen m00 m01 m02 m11 m12 m22 a b c hchar]
  rw [abs_of_nonneg (by positivity)]
  unfold edgeQuotientCorrectionGeneric
  simp only [Matrix.cons_val_zero, Matrix.cons_val_one, Matrix.cons_val_two,
    Matrix.head_cons, Matrix.tail_cons]
  rw [show (1 : ℝ) * (a + b) * (a + c) * (b + c) = (a + b) * ((a + c) * (b + c)) by ring]

/-- Quotient weights of the C7 failing input: all 1. -/
def rho7 : Fin 2 → ℝ := ![1, 1]

/-- Shifted directions of the C7 failing input: the first two standard
basis vectors (two unit edges). -/
def y7 : Fin 2 → Fin 3 → ℝ := ![![1, 0, 0], ![0, 1, 0]]

/-- C7: the claim states that for d = 3 the closed-form cubic computed from
the entries of `Σ = Σ_k ρ_k² y_k y_kᵀ` equals `1/√(Π_{i<j}(λ_i+λ_j))` with
`λ` the eigenvalues of that `Σ`.  The source's accumulation loop
(line 197) starts at `k = 0` after already initialising with edge 0, so the
matrix it feeds to the cubic is `Σ + ρ_0² y_0 y_0ᵀ`, not `Σ`.  At the
failing input (`rho7`, `y7`): the code computes `χ = 1/√6`; the true `Σ` is
`diag(1,1,0)`, whose characteristic polynomial pins its eigenvalues to
`(1, 1, 0)` with multiplicity, so the claimed value — the generic
eigenvalue path on `(1,1,0)` — is `1/√((1+1)(1+0)(1+0)) = 1/√2 ≠ 1/√6`. -/
theorem C7_edge_quotient_bug :
    edgeQuotientCorrection3 1 rho7 y7 = 1 / Real.sqrt 6 ∧
    (∀ t : ℝ, (sigmaSpec 2 rho7 y7 - t • 1).det = (1 - t) * ((1 - t) * (0 - t))) ∧
    edgeQuotientCorrectionGeneric ![1, 1, 0] = 1 / Real.sqrt 2 ∧
    edgeQuotientCorrection3 1 rho7 y7 ≠ edgeQuotientCorrectionGeneric ![1, 1, 0] := by
  have h1 : edgeQuotientCorrection3 1 rho7 y7 = 1 / Real.sqrt 6 := by
    unfold edgeQuotientCorrection3 sigmaAccum
    norm_num [rho7, y7, Fin.sum_univ_succ, Fin.sum_univ_zero, Matrix.cons_val_zero,
      Matrix.cons_val_one, Matrix.cons_val_two, Matrix.cons_val_succ,
      Matrix.head_cons, Matrix.tail_cons]
  have h3 : edgeQuotientCorrectionGeneric ![1, 1, 0] = 1 / Real.sqrt 2 := by
    unfold edgeQuotientCorrectionGeneric
    norm_num [Matrix.cons_val_zero, Matrix.cons_val_one, Matrix.cons_val_two,
      Matrix.head_cons, Matrix.tail_cons]
  refine ⟨h1, ?_, h3, ?_⟩
  · intro t
    simp [sigmaSpec, Matrix.det_fin_three, Matrix.sub_apply, Matrix.smul_apply,
      Matrix.one_fin_three, Matrix.vecHead, Matrix.vecTail, Matrix.of_apply,
      rho7, y7, Fin.sum_univ_succ, Fin.sum_univ_zero, Matrix.cons_val_succ]
    ring
  · rw [h1, h3]
    have h26 : Real.sqrt 2 < Real.sqrt 6 := Real.sqrt_lt_sqrt (by norm_num) (by norm_num)
    have h6pos : 0 < Real.sqrt 6 := Real.sqrt_pos.mpr (by norm_num)
    have h2pos : 0 < Real.sqrt 2 := Real.sqrt_pos.mpr (by norm_num)
    intro heq
    rw [div_eq_div_iff h6pos.ne' h2pos.ne'] at heq
    nlinarith [heq, h26]

end

end CycleSampler
